import Mathlib

/-!
Verification of the recursive-descent JSON parser (src/main.go).

The Go program is embedded shallowly:

* Go's `Lexer` struct carries `(input, pos, current)`, where `pos` is used
  only to slice already-scanned lexemes out of `input`
  (`l.input[start : l.pos-1]`). Every reachable Go state is determined by
  `current` together with the unread remainder `input[pos:]`, so the
  embedding carries exactly those two fields and accumulates scanned
  lexemes instead of slicing; the accumulation reproduces Go's slices
  exactly, including the end-of-input quirk in `readNumber`/`readKeyword`
  where `advance` at end of input leaves `pos` unchanged and the final
  scanned character is therefore dropped from the slice.
* A Go `panic` (the program's only failure mode: it has no error values)
  is modelled as `GoOutcome.panicked msg`; an unrecovered panic terminates
  the Go process.  `parseValue`'s discarded `strconv.ParseFloat` error is
  not a panic and is modelled by `Option.getD 0`, matching Go's zero
  result on a failed conversion.
* The mutually recursive parser routines are total via an explicit fuel
  argument; running out of fuel yields the artificial outcome
  `panicked "out of fuel"`, distinct from every message the Go code can
  produce.  Fuel is irrelevant for concrete runs once it exceeds the
  number of tokens consumed.
* `float64` literal payloads are modelled exactly as decimals
  (`FloatVal`, a mantissa/scale pair);  `strconv.ParseFloat` is modelled
  on the character set `0-9 . -` that `readNumber` can emit (exponent,
  hex, inf and NaN forms are unreachable from those tokens).
-/

namespace JsonGo

/-- The byte value 0 that Go's `advance` stores in `l.current` at end of input. -/
def nulChar : Char := Char.ofNat 0

/-- `unicode.IsSpace` restricted to code points below 256, the only values
`rune(l.input[l.pos])` can take (Go indexes bytes). -/
def isSpaceGo (c : Char) : Bool :=
  c = ' ' || c = '\t' || c = '\n' || c = Char.ofNat 0x0B || c = Char.ofNat 0x0C ||
  c = '\r' || c = Char.ofNat 0x85 || c = Char.ofNat 0xA0

/-- `unicode.IsDigit` restricted to code points below 256. -/
def isDigitGo (c : Char) : Bool := '0' ≤ c && c ≤ '9'

/-- `unicode.IsLetter` restricted to code points below 256. -/
def isLetterGo (c : Char) : Bool :=
  ('a' ≤ c && c ≤ 'z') || ('A' ≤ c && c ≤ 'Z') ||
  c = Char.ofNat 0xAA || c = Char.ofNat 0xB5 || c = Char.ofNat 0xBA ||
  (Char.ofNat 0xC0 ≤ c && c ≤ Char.ofNat 0xD6) ||
  (Char.ofNat 0xD8 ≤ c && c ≤ Char.ofNat 0xF6) ||
  (Char.ofNat 0xF8 ≤ c && c ≤ Char.ofNat 0xFF)

/-- The `TokenType` constants of src/main.go. -/
inductive TokenType where
  | string | number | boolean | null
  | leftBrace | rightBrace | leftBracket | rightBracket
  | colon | comma | eof
deriving DecidableEq, Repr

/-- A lexical token: discriminant plus raw payload, as in the Go `Token` struct.
(The Go token carries no byte offset.) -/
structure Token where
  type : TokenType
  value : String
deriving DecidableEq, Repr

/-- The lexer state: the character under the cursor (`l.current`; 0 at end of
input) and the unread remainder of the input (`l.input[l.pos:]`). -/
structure Lexer where
  current : Char
  rest : List Char
deriving DecidableEq, Repr

/-- `NewLexer`: position the cursor on the first character (one `advance`). -/
def NewLexer (input : List Char) : Lexer :=
  match input with
  | [] => ⟨nulChar, []⟩
  | c :: cs => ⟨c, cs⟩

/-- `(*Lexer).advance`: load the next character, or 0 at end of input. -/
def advance (l : Lexer) : Lexer :=
  match l.rest with
  | [] => ⟨nulChar, []⟩
  | c :: cs => ⟨c, cs⟩

/-- The loop of `skipWhitespace`, structurally recursive on the unread
remainder (each `advance` either consumes one character of it or stops the
loop by setting `current` to 0). -/
def skipWs (c : Char) : List Char → Lexer
  | [] => if isSpaceGo c then ⟨nulChar, []⟩ else ⟨c, []⟩
  | c' :: cs => if isSpaceGo c then skipWs c' cs else ⟨c, c' :: cs⟩

/-- `(*Lexer).skipWhitespace`: advance while `unicode.IsSpace(l.current)`. -/
def skipWhitespace (l : Lexer) : Lexer := skipWs l.current l.rest

/-- Outcome of running a piece of the Go program: a normal result, or a `panic`
with its message.  An unrecovered panic terminates the Go process; the program
has no structured error values. -/
inductive GoOutcome (α : Type) where
  | ok : α → GoOutcome α
  | panicked : String → GoOutcome α
deriving DecidableEq, Repr

/-- The scan loop of `readString`: copy characters verbatim (no escape
processing) until an unescaped `"` or the 0 that marks end of input. -/
def readStringLoop (acc : List Char) (c : Char) : List Char → List Char × Lexer
  | [] =>
    if c != '"' && c != nulChar then (acc ++ [c], ⟨nulChar, []⟩) else (acc, ⟨c, []⟩)
  | c' :: cs =>
    if c != '"' && c != nulChar then readStringLoop (acc ++ [c]) c' cs
    else (acc, ⟨c, c' :: cs⟩)

/-- `(*Lexer).readString`: skip the opening quote, copy until `"` or end of
input, then advance once more (past the closing quote, or a no-op at end of
input).  Note: at end of input the accumulated text is returned as an ordinary
String token. -/
def readString (l : Lexer) : Token × Lexer :=
  let l1 := advance l
  let r := readStringLoop [] l1.current l1.rest
  (⟨.string, String.mk r.1⟩, advance r.2)

/-- The character class of `readNumber`'s loop:
`unicode.IsDigit(c) || c == '.' || c == '-'`. -/
def isNumberChar (c : Char) : Bool := isDigitGo c || c = '.' || c = '-'

/-- The scan loop of `readNumber`.  The `[]` branch models Go's `advance` at end
of input, which leaves `pos` unchanged so the slice `input[start : pos-1]`
omits the final scanned character. -/
def readNumberLoop (acc : List Char) (c : Char) : List Char → List Char × Lexer
  | [] => if isNumberChar c then (acc, ⟨nulChar, []⟩) else (acc, ⟨c, []⟩)
  | c' :: cs =>
    if isNumberChar c then readNumberLoop (acc ++ [c]) c' cs
    else (acc, ⟨c, c' :: cs⟩)

/-- `(*Lexer).readNumber`: consume any run of digits, dots and minus signs and
return it as a Number token; no grammar validation of any kind. -/
def readNumber (l : Lexer) : Token × Lexer :=
  let r := readNumberLoop [] l.current l.rest
  (⟨.number, String.mk r.1⟩, r.2)

/-- The scan loop of `readKeyword` (maximal run of letters); same end-of-input
slice quirk as `readNumberLoop`. -/
def readKeywordLoop (acc : List Char) (c : Char) : List Char → List Char × Lexer
  | [] => if isLetterGo c then (acc, ⟨nulChar, []⟩) else (acc, ⟨c, []⟩)
  | c' :: cs =>
    if isLetterGo c then readKeywordLoop (acc ++ [c]) c' cs
    else (acc, ⟨c, c' :: cs⟩)

/-- `(*Lexer).readKeyword`: a maximal run of letters must be exactly `true`,
`false` or `null`; anything else panics. -/
def readKeyword (l : Lexer) : GoOutcome (Token × Lexer) :=
  let r := readKeywordLoop [] l.current l.rest
  let value := String.mk r.1
  if value = "true" || value = "false" then .ok (⟨.boolean, value⟩, r.2)
  else if value = "null" then .ok (⟨.null, value⟩, r.2)
  else .panicked ("Unexpected keyword: " ++ value)

/-- The dispatch of `nextToken` on the first significant character, exactly
as the Go `switch` (the lexer state after whitespace is `⟨c, rest⟩`).  Any
unrecognized character (and end of input) yields an EOF token without
advancing. -/
def nextTokenAt (c : Char) (rest : List Char) : GoOutcome (Token × Lexer) :=
  if c = '{' then .ok (⟨.leftBrace, "\x7b"⟩, advance ⟨c, rest⟩)
  else if c = '}' then .ok (⟨.rightBrace, "\x7d"⟩, advance ⟨c, rest⟩)
  else if c = '[' then .ok (⟨.leftBracket, "["⟩, advance ⟨c, rest⟩)
  else if c = ']' then .ok (⟨.rightBracket, "]"⟩, advance ⟨c, rest⟩)
  else if c = ':' then .ok (⟨.colon, ":"⟩, advance ⟨c, rest⟩)
  else if c = ',' then .ok (⟨.comma, ","⟩, advance ⟨c, rest⟩)
  else if c = '"' then .ok (readString ⟨c, rest⟩)
  else if isDigitGo c || c = '-' then .ok (readNumber ⟨c, rest⟩)
  else if isLetterGo c then readKeyword ⟨c, rest⟩
  else .ok (⟨.eof, ""⟩, ⟨c, rest⟩)

/-- `(*Lexer).nextToken`: skip whitespace, then dispatch on the current
character. -/
def nextToken (l : Lexer) : GoOutcome (Token × Lexer) :=
  let l' := skipWhitespace l
  nextTokenAt l'.current l'.rest

/-- A `float64` value produced by `strconv.ParseFloat`, represented exactly as
`mantissa × 10^(-scale)`.  Every literal `readNumber` can emit denotes such a
decimal; IEEE rounding is not modelled (no claim distinguishes two decimals
closer than double precision). -/
structure FloatVal where
  mantissa : Int
  scale : Nat
deriving DecidableEq, Repr

/-- The `float64` zero that Go's `ParseFloat` returns alongside a non-nil
error. -/
def floatZero : FloatVal := ⟨0, 0⟩

/-- The value tree the parser produces (Go returns `interface{}` holding
`string`, `float64`, `bool`, `nil`, `map[string]interface{}` or
`[]interface{}`). -/
inductive Value where
  | str : String → Value
  | num : FloatVal → Value
  | bool : Bool → Value
  | null : Value
  | obj : List (String × Value) → Value
  | arr : List Value → Value

/-- Go map assignment `obj[key] = value`: overwrite the binding if the key is
present, otherwise add it. -/
def insertPair : List (String × Value) → String → Value → List (String × Value)
  | [], k, v => [(k, v)]
  | (k', v') :: rest, k, v =>
    if k' = k then (k, v) :: rest else (k', v') :: insertPair rest k v

/-- Decimal value of a digit run. -/
def digitsToNat (ds : List Char) : Nat :=
  ds.foldl (fun acc c => 10 * acc + (c.toNat - '0'.toNat)) 0

/-- `strconv.ParseFloat(_, 64)` on the character set `0-9 . -` that
`readNumber` can emit: optional leading minus, then digits with at most one
decimal point and at least one digit, nothing left over.  `none` models Go's
non-nil error (Go then also returns the value 0).  Exponent, hex, inf and NaN
forms contain characters `readNumber` never consumes, so they are
unreachable. -/
def parseFloatGo (s : List Char) : Option FloatVal :=
  let p := match s with
    | '-' :: r => ((-1 : Int), r)
    | _ => ((1 : Int), s)
  let ip := p.2.takeWhile isDigitGo
  let r1 := p.2.drop ip.length
  match r1 with
  | [] => if ip.isEmpty then none else some ⟨p.1 * digitsToNat ip, 0⟩
  | '.' :: r2 =>
    let fp := r2.takeWhile isDigitGo
    if (r2.drop fp.length).isEmpty then
      if ip.isEmpty && fp.isEmpty then none
      else some ⟨p.1 * digitsToNat (ip ++ fp), fp.length⟩
    else none
  | _ => none

/-- The parser state: the one-token lookahead plus the lexer handle, as in the
Go `Parser` struct. -/
structure Parser where
  token : Token
  lexer : Lexer

/-- `(*Parser).nextToken`: pull the next token into the lookahead (propagating
a lexer panic). -/
def parserAdvance (p : Parser) : GoOutcome Parser :=
  match nextToken p.lexer with
  | .ok (t, l) => .ok ⟨t, l⟩
  | .panicked m => .panicked m

/-- One pending activation of the mutually recursive parser routines
(`parseValue`, `parseObject` and its member loop, `parseArray` and its
element loop), with the loops' accumulators made explicit. -/
inductive ParseCall where
  | value : Parser → ParseCall
  | object : Parser → ParseCall
  | objectLoop : List (String × Value) → Parser → ParseCall
  | array : Parser → ParseCall
  | arrayLoop : List Value → Parser → ParseCall

/-- The mutually recursive parser routines of src/main.go as one dispatcher,
structurally recursive on the fuel so that concrete runs compute.  Each case
is the body of the corresponding Go routine. -/
def parseRun : Nat → ParseCall → GoOutcome (Value × Parser)
  | 0, _ => .panicked "out of fuel"
  | fuel + 1, call =>
    match call with
    | .value p =>
      match p.token.type with
      | .string =>
        match parserAdvance p with
        | .ok p' => .ok (.str p.token.value, p')
        | .panicked m => .panicked m
      | .number =>
        match parserAdvance p with
        | .ok p' => .ok (.num ((parseFloatGo p.token.value.toList).getD floatZero), p')
        | .panicked m => .panicked m
      | .boolean =>
        match parserAdvance p with
        | .ok p' => .ok (.bool (p.token.value == "true"), p')
        | .panicked m => .panicked m
      | .null =>
        match parserAdvance p with
        | .ok p' => .ok (.null, p')
        | .panicked m => .panicked m
      | .leftBrace => parseRun fuel (.object p)
      | .leftBracket => parseRun fuel (.array p)
      | _ => .panicked ("Unexpected token: " ++ p.token.value)
    | .object p =>
      match parserAdvance p with
      | .panicked m => .panicked m
      | .ok p' => parseRun fuel (.objectLoop [] p')
    | .objectLoop obj p =>
      if p.token.type = .rightBrace then
        match parserAdvance p with
        | .ok p' => .ok (.obj obj, p')
        | .panicked m => .panicked m
      else if p.token.type ≠ .string then .panicked "Expected string key in object"
      else
        match parserAdvance p with
        | .panicked m => .panicked m
        | .ok p1 =>
          if p1.token.type ≠ .colon then .panicked "Expected ':' after key"
          else
            match parserAdvance p1 with
            | .panicked m => .panicked m
            | .ok p2 =>
              match parseRun fuel (.value p2) with
              | .panicked m => .panicked m
              | .ok (v, p3) =>
                if p3.token.type = .comma then
                  match parserAdvance p3 with
                  | .panicked m => .panicked m
                  | .ok p4 => parseRun fuel (.objectLoop (insertPair obj p.token.value v) p4)
                else if p3.token.type ≠ .rightBrace then
                  .panicked "Expected ',' or '\x7d' in object"
                else parseRun fuel (.objectLoop (insertPair obj p.token.value v) p3)
    | .array p =>
      match parserAdvance p with
      | .panicked m => .panicked m
      | .ok p' => parseRun fuel (.arrayLoop [] p')
    | .arrayLoop arr p =>
      if p.token.type = .rightBracket then
        match parserAdvance p with
        | .ok p' => .ok (.arr arr, p')
        | .panicked m => .panicked m
      else
        match parseRun fuel (.value p) with
        | .panicked m => .panicked m
        | .ok (v, p1) =>
          if p1.token.type = .comma then
            match parserAdvance p1 with
            | .panicked m => .panicked m
            | .ok p2 => parseRun fuel (.arrayLoop (arr ++ [v]) p2)
          else if p1.token.type ≠ .rightBracket then
            .panicked "Expected ',' or ']' in array"
          else parseRun fuel (.arrayLoop (arr ++ [v]) p1)

/-- `(*Parser).parseValue`: dispatch on the lookahead token kind. -/
def parseValue (fuel : Nat) (p : Parser) : GoOutcome (Value × Parser) :=
  parseRun fuel (.value p)

/-- `(*Parser).parseObject`: consume the `\x7b`, then loop over members. -/
def parseObject (fuel : Nat) (p : Parser) : GoOutcome (Value × Parser) :=
  parseRun fuel (.object p)

/-- `(*Parser).parseArray`: consume the `[`, then loop over elements. -/
def parseArray (fuel : Nat) (p : Parser) : GoOutcome (Value × Parser) :=
  parseRun fuel (.array p)

/-- `(*Parser).parseJSON`: only `\x7b` or `[` may start a document; anything
else panics.  No check for trailing input follows the top-level value. -/
def parseJSON (fuel : Nat) (p : Parser) : GoOutcome (Value × Parser) :=
  match p.token.type with
  | .leftBrace => parseObject fuel p
  | .leftBracket => parseArray fuel p
  | _ => .panicked "Invalid JSON start"

/-- The whole pipeline of `main`: `NewLexer`, `NewParser` (which pulls the
first token) and `parseJSON`, returning the parsed value. -/
def runParser (fuel : Nat) (input : List Char) : GoOutcome Value :=
  match nextToken (NewLexer input) with
  | .panicked m => .panicked m
  | .ok (t, l) =>
    match parseJSON fuel ⟨t, l⟩ with
    | .panicked m => .panicked m
    | .ok (v, _) => .ok v

/-! ## Object maps: lookup and duplicate-key bookkeeping -/

/-- Go map lookup `obj[k]` on the association-list model. -/
def lookupKey : List (String × Value) → String → Option Value
  | [], _ => none
  | (k', v) :: rest, k => if k' = k then some v else lookupKey rest k

/-- How many bindings of `k` an association list holds (a Go map always
holds at most one). -/
def keyCount : List (String × Value) → String → Nat
  | [], _ => 0
  | (k', _) :: rest, k => (if k' = k then 1 else 0) + keyCount rest k

theorem lookupKey_insertPair_self (m : List (String × Value)) (k : String) (v : Value) :
    lookupKey (insertPair m k v) k = some v := by
  induction m with
  | nil => simp [insertPair, lookupKey]
  | cons kv rest ih =>
    obtain ⟨k', v'⟩ := kv
    by_cases h : k' = k <;> simp [insertPair, lookupKey, h, ih]

theorem lookupKey_insertPair_ne (m : List (String × Value)) (k j : String) (v : Value)
    (h : j ≠ k) : lookupKey (insertPair m k v) j = lookupKey m j := by
  have hkj : ¬(k = j) := Ne.symm h
  induction m with
  | nil => simp [insertPair, lookupKey, hkj]
  | cons kv rest ih =>
    obtain ⟨k', v'⟩ := kv
    by_cases hk : k' = k
    · subst hk
      simp [insertPair, lookupKey, hkj]
    · simp [insertPair, lookupKey, hk, ih]

theorem keyCount_insertPair_ne (m : List (String × Value)) (k j : String) (v : Value)
    (h : j ≠ k) : keyCount (insertPair m k v) j = keyCount m j := by
  have hkj : ¬(k = j) := Ne.symm h
  induction m with
  | nil => simp [insertPair, keyCount, hkj]
  | cons kv rest ih =>
    obtain ⟨k', v'⟩ := kv
    by_cases hk : k' = k
    · subst hk
      simp [insertPair, keyCount]
    · simp [insertPair, keyCount, hk, ih]

theorem keyCount_insertPair_le_one (m : List (String × Value)) (k j : String) (v : Value) :
    keyCount m j ≤ 1 → keyCount (insertPair m k v) j ≤ 1 := by
  induction m with
  | nil =>
    intro _
    simp only [insertPair, keyCount]
    split <;> simp
  | cons kv rest ih =>
    obtain ⟨k', v'⟩ := kv
    intro h
    by_cases hk : k' = k
    · subst hk
      simpa [insertPair, keyCount] using h
    · by_cases hj : k' = j
      · subst hj
        simp only [keyCount, if_pos rfl] at h
        simp only [insertPair, if_neg hk, keyCount, if_pos rfl]
        rw [keyCount_insertPair_ne rest k k' v hk]
        omega
      · simp only [keyCount, if_neg hj, Nat.zero_add] at h
        simp only [insertPair, if_neg hk, keyCount, if_neg hj, Nat.zero_add]
        exact ih h

theorem mem_insertPair (m : List (String × Value)) (k : String) (v : Value)
    (kv : String × Value) (h : kv ∈ insertPair m k v) : kv = (k, v) ∨ kv ∈ m := by
  induction m with
  | nil => simpa [insertPair] using h
  | cons kv' rest ih =>
    obtain ⟨k', v'⟩ := kv'
    by_cases hk : k' = k
    · subst hk
      rcases (by simpa [insertPair] using h : kv = (k', v) ∨ kv ∈ rest) with h' | h'
      · exact Or.inl h'
      · exact Or.inr (List.mem_cons_of_mem _ h')
    · rcases (by simpa [insertPair, hk] using h : kv = (k', v') ∨ kv ∈ insertPair rest k v)
        with h' | h'
      · exact Or.inr (by simp [h'])
      · rcases ih h' with h'' | h''
        · exact Or.inl h''
        · exact Or.inr (List.mem_cons_of_mem _ h'')

/-- Every object of the tree is a well-formed map image: at most one binding
per key, recursively. -/
inductive AllUniq : Value → Prop where
  | str (s : String) : AllUniq (.str s)
  | num (x : FloatVal) : AllUniq (.num x)
  | bool (b : Bool) : AllUniq (.bool b)
  | null : AllUniq .null
  | obj (m : List (String × Value)) (hc : ∀ j, keyCount m j ≤ 1)
      (hm : ∀ kv ∈ m, AllUniq kv.2) : AllUniq (.obj m)
  | arr (a : List Value) (ha : ∀ e ∈ a, AllUniq e) : AllUniq (.arr a)

/-- The precondition each pending parser activation maintains: the loop
accumulators already satisfy the map invariant. -/
def CallInv : ParseCall → Prop
  | .objectLoop obj _ => (∀ j, keyCount obj j ≤ 1) ∧ ∀ kv ∈ obj, AllUniq kv.2
  | .arrayLoop arr _ => ∀ e ∈ arr, AllUniq e
  | _ => True

/-- Whatever the parser returns satisfies the map invariant everywhere: a Go
map cannot retain two bindings of one key. -/
theorem parseRun_allUniq :
    ∀ (fuel : Nat) (call : ParseCall) (v : Value) (p' : Parser),
      CallInv call → parseRun fuel call = .ok (v, p') → AllUniq v := by
  intro fuel
  induction fuel with
  | zero => intro call v p' _ h; simp [parseRun] at h
  | succ fuel ih =>
    intro call v p' hinv h
    match call with
    | .value p =>
      rw [parseRun] at h
      split at h
      · split at h
        · cases h; exact .str _
        · cases h
      · split at h
        · cases h; exact .num _
        · cases h
      · split at h
        · cases h; exact .bool _
        · cases h
      · split at h
        · cases h; exact .null
        · cases h
      · exact ih (.object p) v p' trivial h
      · exact ih (.array p) v p' trivial h
      · cases h
    | .object p =>
      rw [parseRun] at h
      split at h
      · cases h
      · exact ih (.objectLoop [] _) v p' ⟨fun j => by simp [keyCount], by simp⟩ h
    | .objectLoop obj p =>
      rw [parseRun] at h
      split at h
      · -- exit branch: the `\x7d` lookahead
        split at h <;> cases h
        exact .obj obj hinv.1 hinv.2
      · split at h
        · cases h
        · split at h
          · cases h
          · rename_i p1 _
            split at h
            · cases h
            · split at h
              · cases h
              · rename_i p2 _
                split at h
                · cases h
                · rename_i w p3 hval
                  have hw : AllUniq w := ih (.value p2) w p3 trivial hval
                  have hinv' : ∀ q,
                      CallInv (.objectLoop (insertPair obj p.token.value w) q) := by
                    intro q
                    refine ⟨fun j => keyCount_insertPair_le_one _ _ _ _ (hinv.1 j), ?_⟩
                    intro kv hkv
                    rcases mem_insertPair _ _ _ _ hkv with h' | h'
                    · rw [h']; exact hw
                    · exact hinv.2 kv h'
                  split at h
                  · split at h
                    · cases h
                    · exact ih _ v p' (hinv' _) h
                  · split at h
                    · cases h
                    · exact ih _ v p' (hinv' _) h
    | .array p =>
      rw [parseRun] at h
      split at h
      · cases h
      · exact ih (.arrayLoop [] _) v p' (by intro e he; cases he) h
    | .arrayLoop arr p =>
      rw [parseRun] at h
      split at h
      · split at h <;> cases h
        exact .arr arr hinv
      · split at h
        · cases h
        · rename_i w p1 hval
          have hw : AllUniq w := ih (.value p) w p1 trivial hval
          have hinv' : ∀ q, CallInv (.arrayLoop (arr ++ [w]) q) := by
            intro q e he
            rcases List.mem_append.mp he with h' | h'
            · exact hinv e h'
            · rw [List.mem_singleton.mp h']; exact hw
          split at h
          · split at h
            · cases h
            · exact ih _ v p' (hinv' _) h
          · split at h
            · cases h
            · exact ih _ v p' (hinv' _) h

/-- Lift of `parseRun_allUniq` through `parseJSON` to the whole pipeline. -/
theorem runParser_allUniq (fuel : Nat) (s : List Char) (v : Value)
    (h : runParser fuel s = .ok v) : AllUniq v := by
  rw [runParser] at h
  split at h
  · cases h
  · rename_i t l _
    split at h
    · cases h
    · rename_i w p hp
      cases h
      rw [parseJSON] at hp
      split at hp
      · exact parseRun_allUniq fuel (.object _) v p trivial hp
      · exact parseRun_allUniq fuel (.array _) v p trivial hp
      · cases hp

/-! ## Whitespace insensitivity: the parser sees only the token stream

`trace n l` is the first `n` outcomes of pulling tokens from `l`.  Two lexer
states with equal traces are indistinguishable to the parser
(`parseRun_respects`), and inserting whitespace between tokens leaves the
trace unchanged (proved further below). -/

/-- The first `n` outcomes of repeatedly calling `nextToken` (a panic ends
the run). -/
def trace : Nat → Lexer → List (GoOutcome Token)
  | 0, _ => []
  | n + 1, l =>
    match nextToken l with
    | .ok (t, l') => .ok t :: trace n l'
    | .panicked m => [.panicked m]

/-- Lexer states that produce identical token streams. -/
def TraceEq (l₁ l₂ : Lexer) : Prop := ∀ n, trace n l₁ = trace n l₂

theorem traceEq_nextToken {l₁ l₂ : Lexer} (h : TraceEq l₁ l₂) :
    (∃ t m₁ m₂, nextToken l₁ = .ok (t, m₁) ∧ nextToken l₂ = .ok (t, m₂) ∧ TraceEq m₁ m₂)
    ∨ (∃ s, nextToken l₁ = .panicked s ∧ nextToken l₂ = .panicked s) := by
  have h1 := h (0 + 1)
  cases e₁ : nextToken l₁ with
  | ok r₁ =>
    obtain ⟨t₁, m₁⟩ := r₁
    cases e₂ : nextToken l₂ with
    | ok r₂ =>
      obtain ⟨t₂, m₂⟩ := r₂
      simp only [trace, e₁, e₂, List.cons.injEq] at h1
      have ht : t₁ = t₂ := by cases h1.1; rfl
      subst ht
      refine Or.inl ⟨t₁, m₁, m₂, rfl, rfl, ?_⟩
      intro n
      have h2 := h (n + 1)
      simp only [trace, e₁, e₂, List.cons.injEq] at h2
      exact h2.2
    | panicked s₂ =>
      simp [trace, e₁, e₂] at h1
  | panicked s₁ =>
    cases e₂ : nextToken l₂ with
    | ok r₂ =>
      obtain ⟨t₂, m₂⟩ := r₂
      simp [trace, e₁, e₂] at h1
    | panicked s₂ =>
      simp only [trace, e₁, e₂, List.cons.injEq] at h1
      have hs : s₁ = s₂ := by cases h1.1; rfl
      exact Or.inr ⟨s₁, rfl, by rw [hs]⟩

theorem traceEq_parserAdvance {l₁ l₂ : Lexer} (h : TraceEq l₁ l₂) (t : Token) :
    (∃ t' m₁ m₂, parserAdvance ⟨t, l₁⟩ = .ok ⟨t', m₁⟩ ∧ parserAdvance ⟨t, l₂⟩ = .ok ⟨t', m₂⟩
      ∧ TraceEq m₁ m₂)
    ∨ (∃ s, parserAdvance ⟨t, l₁⟩ = .panicked s ∧ parserAdvance ⟨t, l₂⟩ = .panicked s) := by
  rcases traceEq_nextToken h with ⟨t', m₁, m₂, e₁, e₂, hm⟩ | ⟨s, e₁, e₂⟩
  · exact Or.inl ⟨t', m₁, m₂, by simp [parserAdvance, e₁], by simp [parserAdvance, e₂], hm⟩
  · exact Or.inr ⟨s, by simp [parserAdvance, e₁], by simp [parserAdvance, e₂]⟩

/-- Two parser outcomes that agree on everything the caller can observe: same
panic, or same value and lookahead with trace-equal lexers. -/
def PRel : GoOutcome (Value × Parser) → GoOutcome (Value × Parser) → Prop
  | .ok (v₁, p₁), .ok (v₂, p₂) => v₁ = v₂ ∧ p₁.token = p₂.token ∧ TraceEq p₁.lexer p₂.lexer
  | .panicked a, .panicked b => a = b
  | _, _ => False

theorem PRel.okI (v : Value) (t : Token) (l₁ l₂ : Lexer) (h : TraceEq l₁ l₂) :
    PRel (.ok (v, ⟨t, l₁⟩)) (.ok (v, ⟨t, l₂⟩)) := ⟨rfl, rfl, h⟩

theorem PRel.panI (m : String) : PRel (GoOutcome.panicked m) (GoOutcome.panicked m) := rfl

theorem PRel.split {r₁ r₂ : GoOutcome (Value × Parser)} (h : PRel r₁ r₂) :
    (∃ v t l₁ l₂, r₁ = .ok (v, ⟨t, l₁⟩) ∧ r₂ = .ok (v, ⟨t, l₂⟩) ∧ TraceEq l₁ l₂)
    ∨ (∃ m, r₁ = .panicked m ∧ r₂ = .panicked m) := by
  match r₁, r₂ with
  | .ok (v₁, ⟨t₁, l₁⟩), .ok (v₂, ⟨t₂, l₂⟩) =>
    obtain ⟨hv, ht, hl⟩ := h
    cases hv; cases ht
    exact Or.inl ⟨v₁, t₁, l₁, l₂, rfl, rfl, hl⟩
  | .panicked a, .panicked b => cases h; exact Or.inr ⟨a, rfl, rfl⟩
  | .ok _, .panicked _ => cases h
  | .panicked _, .ok _ => cases h

/-- Pending parser activations that differ only in trace-equal lexer states. -/
inductive CallRel : ParseCall → ParseCall → Prop where
  | value (t : Token) (l₁ l₂ : Lexer) : TraceEq l₁ l₂ →
      CallRel (.value ⟨t, l₁⟩) (.value ⟨t, l₂⟩)
  | object (t : Token) (l₁ l₂ : Lexer) : TraceEq l₁ l₂ →
      CallRel (.object ⟨t, l₁⟩) (.object ⟨t, l₂⟩)
  | objectLoop (obj : List (String × Value)) (t : Token) (l₁ l₂ : Lexer) : TraceEq l₁ l₂ →
      CallRel (.objectLoop obj ⟨t, l₁⟩) (.objectLoop obj ⟨t, l₂⟩)
  | array (t : Token) (l₁ l₂ : Lexer) : TraceEq l₁ l₂ →
      CallRel (.array ⟨t, l₁⟩) (.array ⟨t, l₂⟩)
  | arrayLoop (arr : List Value) (t : Token) (l₁ l₂ : Lexer) : TraceEq l₁ l₂ →
      CallRel (.arrayLoop arr ⟨t, l₁⟩) (.arrayLoop arr ⟨t, l₂⟩)

/-- The parser's behaviour is a function of the token stream alone: running
any of the mutually recursive routines on trace-equal lexer states yields
observably equal outcomes. -/
theorem parseRun_respects :
    ∀ (fuel : Nat) (c₁ c₂ : ParseCall), CallRel c₁ c₂ →
      PRel (parseRun fuel c₁) (parseRun fuel c₂) := by
  intro fuel
  induction fuel with
  | zero =>
    intro c₁ c₂ _
    exact PRel.panI "out of fuel"
  | succ fuel ih =>
    intro c₁ c₂ hc
    cases hc with
    | value t l₁ l₂ hl =>
      obtain ⟨tt, tv⟩ := t
      simp only [parseRun]
      cases tt
      case string =>
        rcases traceEq_parserAdvance hl ⟨.string, tv⟩ with ⟨t', m₁, m₂, e₁, e₂, hm⟩ | ⟨s, e₁, e₂⟩
        · simp only [e₁, e₂]; exact PRel.okI _ _ _ _ hm
        · simp only [e₁, e₂]; exact PRel.panI s
      case number =>
        rcases traceEq_parserAdvance hl ⟨.number, tv⟩ with ⟨t', m₁, m₂, e₁, e₂, hm⟩ | ⟨s, e₁, e₂⟩
        · simp only [e₁, e₂]; exact PRel.okI _ _ _ _ hm
        · simp only [e₁, e₂]; exact PRel.panI s
      case boolean =>
        rcases traceEq_parserAdvance hl ⟨.boolean, tv⟩ with ⟨t', m₁, m₂, e₁, e₂, hm⟩ | ⟨s, e₁, e₂⟩
        · simp only [e₁, e₂]; exact PRel.okI _ _ _ _ hm
        · simp only [e₁, e₂]; exact PRel.panI s
      case null =>
        rcases traceEq_parserAdvance hl ⟨.null, tv⟩ with ⟨t', m₁, m₂, e₁, e₂, hm⟩ | ⟨s, e₁, e₂⟩
        · simp only [e₁, e₂]; exact PRel.okI _ _ _ _ hm
        · simp only [e₁, e₂]; exact PRel.panI s
      case leftBrace => exact ih _ _ (.object _ _ _ hl)
      case leftBracket => exact ih _ _ (.array _ _ _ hl)
      case rightBrace => exact PRel.panI _
      case rightBracket => exact PRel.panI _
      case colon => exact PRel.panI _
      case comma => exact PRel.panI _
      case eof => exact PRel.panI _
    | object t l₁ l₂ hl =>
      simp only [parseRun]
      rcases traceEq_parserAdvance hl t with ⟨t', m₁, m₂, e₁, e₂, hm⟩ | ⟨s, e₁, e₂⟩
      · simp only [e₁, e₂]; exact ih _ _ (.objectLoop [] _ _ _ hm)
      · simp only [e₁, e₂]; exact PRel.panI s
    | objectLoop obj t l₁ l₂ hl =>
      simp only [parseRun]
      by_cases hrb : t.type = .rightBrace
      · simp only [if_pos hrb]
        rcases traceEq_parserAdvance hl t with ⟨t', m₁, m₂, e₁, e₂, hm⟩ | ⟨s, e₁, e₂⟩
        · simp only [e₁, e₂]; exact PRel.okI _ _ _ _ hm
        · simp only [e₁, e₂]; exact PRel.panI s
      · simp only [if_neg hrb]
        by_cases hstr : t.type ≠ .string
        · simp only [if_pos hstr]; exact PRel.panI _
        · simp only [if_neg hstr]
          rcases traceEq_parserAdvance hl t with ⟨t1, m₁, m₂, e₁, e₂, hm⟩ | ⟨s, e₁, e₂⟩
          · simp only [e₁, e₂]
            by_cases hcol : t1.type ≠ .colon
            · simp only [if_pos hcol]; exact PRel.panI _
            · simp only [if_neg hcol]
              rcases traceEq_parserAdvance hm t1 with ⟨t2, n₁, n₂, f₁, f₂, hn⟩ | ⟨s, f₁, f₂⟩
              · simp only [f₁, f₂]
                have hv := ih (.value ⟨t2, n₁⟩) (.value ⟨t2, n₂⟩) (.value _ _ _ hn)
                rcases hv.split with ⟨w, t3, o₁, o₂, g₁, g₂, ho⟩ | ⟨m, g₁, g₂⟩
                · simp only [g₁, g₂]
                  by_cases hcom : t3.type = .comma
                  · simp only [if_pos hcom]
                    rcases traceEq_parserAdvance ho t3 with ⟨t4, q₁, q₂, d₁, d₂, hq⟩ | ⟨s, d₁, d₂⟩
                    · simp only [d₁, d₂]; exact ih _ _ (.objectLoop _ _ _ _ hq)
                    · simp only [d₁, d₂]; exact PRel.panI s
                  · simp only [if_neg hcom]
                    by_cases hrb2 : t3.type ≠ .rightBrace
                    · simp only [if_pos hrb2]; exact PRel.panI _
                    · simp only [if_neg hrb2]; exact ih _ _ (.objectLoop _ _ _ _ ho)
                · simp only [g₁, g₂]; exact PRel.panI m
              · simp only [f₁, f₂]; exact PRel.panI s
          · simp only [e₁, e₂]; exact PRel.panI s
    | array t l₁ l₂ hl =>
      simp only [parseRun]
      rcases traceEq_parserAdvance hl t with ⟨t', m₁, m₂, e₁, e₂, hm⟩ | ⟨s, e₁, e₂⟩
      · simp only [e₁, e₂]; exact ih _ _ (.arrayLoop [] _ _ _ hm)
      · simp only [e₁, e₂]; exact PRel.panI s
    | arrayLoop arr t l₁ l₂ hl =>
      simp only [parseRun]
      by_cases hrb : t.type = .rightBracket
      · simp only [if_pos hrb]
        rcases traceEq_parserAdvance hl t with ⟨t', m₁, m₂, e₁, e₂, hm⟩ | ⟨s, e₁, e₂⟩
        · simp only [e₁, e₂]; exact PRel.okI _ _ _ _ hm
        · simp only [e₁, e₂]; exact PRel.panI s
      · simp only [if_neg hrb]
        have hv := ih (.value ⟨t, l₁⟩) (.value ⟨t, l₂⟩) (.value _ _ _ hl)
        rcases hv.split with ⟨w, t1, o₁, o₂, g₁, g₂, ho⟩ | ⟨m, g₁, g₂⟩
        · simp only [g₁, g₂]
          by_cases hcom : t1.type = .comma
          · simp only [if_pos hcom]
            rcases traceEq_parserAdvance ho t1 with ⟨t2, q₁, q₂, d₁, d₂, hq⟩ | ⟨s, d₁, d₂⟩
            · simp only [d₁, d₂]; exact ih _ _ (.arrayLoop _ _ _ _ hq)
            · simp only [d₁, d₂]; exact PRel.panI s
          · simp only [if_neg hcom]
            by_cases hrb2 : t1.type ≠ .rightBracket
            · simp only [if_pos hrb2]; exact PRel.panI _
            · simp only [if_neg hrb2]; exact ih _ _ (.arrayLoop _ _ _ _ ho)
        · simp only [g₁, g₂]; exact PRel.panI m

/-- The whole pipeline is a function of the token stream of the input. -/
theorem runParser_traceEq (fuel : Nat) (s₁ s₂ : List Char)
    (h : TraceEq (NewLexer s₁) (NewLexer s₂)) :
    runParser fuel s₁ = runParser fuel s₂ := by
  rw [runParser, runParser]
  rcases traceEq_nextToken h with ⟨t, m₁, m₂, e₁, e₂, hm⟩ | ⟨s, e₁, e₂⟩
  · simp only [e₁, e₂]
    have hj : PRel (parseJSON fuel ⟨t, m₁⟩) (parseJSON fuel ⟨t, m₂⟩) := by
      rw [parseJSON, parseJSON]
      obtain ⟨tt, tv⟩ := t
      cases tt
      case leftBrace => exact parseRun_respects fuel _ _ (.object _ _ _ hm)
      case leftBracket => exact parseRun_respects fuel _ _ (.array _ _ _ hm)
      all_goals exact PRel.panI _
    rcases hj.split with ⟨w, t3, o₁, o₂, g₁, g₂, ho⟩ | ⟨m, g₁, g₂⟩
    · simp only [g₁, g₂]
    · simp only [g₁, g₂]
  · simp only [e₁, e₂]

/-! ## How the lexer consumes one lexeme

Each lemma below runs `nextToken` over one complete lexeme (preceded by
whitespace where stated) and lands exactly on the following text. -/

theorem advance_mk (c : Char) (k : List Char) : advance ⟨c, k⟩ = NewLexer k := by
  cases k <;> rfl

theorem skipWs_not_space {c : Char} (h : isSpaceGo c = false) (rest : List Char) :
    skipWs c rest = ⟨c, rest⟩ := by
  cases rest <;> simp [skipWs, h]

theorem skipWs_space {c : Char} (h : isSpaceGo c = true) (rest : List Char) :
    skipWs c rest = skipWhitespace (NewLexer rest) := by
  cases rest with
  | nil => simp [skipWs, h, NewLexer, skipWhitespace, skipWs_not_space (by decide : isSpaceGo nulChar = false)]
  | cons c' cs => simp [skipWs, h, NewLexer, skipWhitespace]

theorem nextToken_mk_not_space {c : Char} (h : isSpaceGo c = false) (rest : List Char) :
    nextToken ⟨c, rest⟩ = nextTokenAt c rest := by
  simp only [nextToken, skipWhitespace]
  rw [skipWs_not_space h]

theorem skipWhitespace_ws_append (w s : List Char) (hw : ∀ c ∈ w, isSpaceGo c = true) :
    skipWhitespace (NewLexer (w ++ s)) = skipWhitespace (NewLexer s) := by
  induction w with
  | nil => rfl
  | cons c w' ih =>
    have hc : isSpaceGo c = true := hw c (List.mem_cons_self c w')
    show skipWhitespace ⟨c, w' ++ s⟩ = _
    rw [skipWhitespace]
    show skipWs c (w' ++ s) = _
    rw [skipWs_space hc]
    exact ih fun c hc' => hw c (List.mem_cons_of_mem _ hc')

theorem nextToken_ws_append (w s : List Char) (hw : ∀ c ∈ w, isSpaceGo c = true) :
    nextToken (NewLexer (w ++ s)) = nextToken (NewLexer s) := by
  simp only [nextToken]
  rw [skipWhitespace_ws_append w s hw]

theorem nextToken_lbrace (k : List Char) :
    nextToken (NewLexer ('{' :: k)) = .ok (⟨.leftBrace, "\x7b"⟩, NewLexer k) := by
  rw [show NewLexer ('{' :: k) = ⟨'{', k⟩ from rfl,
    nextToken_mk_not_space (by decide), ← advance_mk '{' k]
  rfl

theorem nextToken_rbrace (k : List Char) :
    nextToken (NewLexer ('}' :: k)) = .ok (⟨.rightBrace, "\x7d"⟩, NewLexer k) := by
  rw [show NewLexer ('}' :: k) = ⟨'}', k⟩ from rfl,
    nextToken_mk_not_space (by decide), ← advance_mk '}' k]
  rfl

theorem nextToken_lbracket (k : List Char) :
    nextToken (NewLexer ('[' :: k)) = .ok (⟨.leftBracket, "["⟩, NewLexer k) := by
  rw [show NewLexer ('[' :: k) = ⟨'[', k⟩ from rfl,
    nextToken_mk_not_space (by decide), ← advance_mk '[' k]
  rfl

theorem nextToken_rbracket (k : List Char) :
    nextToken (NewLexer (']' :: k)) = .ok (⟨.rightBracket, "]"⟩, NewLexer k) := by
  rw [show NewLexer (']' :: k) = ⟨']', k⟩ from rfl,
    nextToken_mk_not_space (by decide), ← advance_mk ']' k]
  rfl

theorem nextToken_colon (k : List Char) :
    nextToken (NewLexer (':' :: k)) = .ok (⟨.colon, ":"⟩, NewLexer k) := by
  rw [show NewLexer (':' :: k) = ⟨':', k⟩ from rfl,
    nextToken_mk_not_space (by decide), ← advance_mk ':' k]
  rfl

theorem nextToken_comma (k : List Char) :
    nextToken (NewLexer (',' :: k)) = .ok (⟨.comma, ","⟩, NewLexer k) := by
  rw [show NewLexer (',' :: k) = ⟨',', k⟩ from rfl,
    nextToken_mk_not_space (by decide), ← advance_mk ',' k]
  rfl

/-- The characters `readString` copies: anything but the closing quote and
the end-of-input marker. -/
def strChar (c : Char) : Bool := c != '"' && c != nulChar

/-- `readStringLoop` with the initial `(current, rest)` split re-packed, to
state lemmas over the flat character list. -/
def stringLoopL (acc : List Char) : List Char → List Char × Lexer
  | [] => readStringLoop acc nulChar []
  | c :: cs => readStringLoop acc c cs

theorem readStringLoop_newLexer (acc : List Char) (s : List Char) :
    readStringLoop acc (NewLexer s).current (NewLexer s).rest = stringLoopL acc s := by
  cases s <;> rfl

theorem stringLoopL_spec :
    ∀ (p acc k : List Char), p.all strChar = true →
      stringLoopL acc (p ++ '"' :: k) = (acc ++ p, ⟨'"', k⟩) := by
  intro p
  induction p with
  | nil =>
    intro acc k _
    cases k <;> simp [stringLoopL, readStringLoop]
  | cons c p' ih =>
    intro acc k hall
    simp only [List.all_cons, Bool.and_eq_true] at hall
    have hcc : (c != '"' && c != nulChar) = true := hall.1
    have step : stringLoopL acc ((c :: p') ++ '"' :: k)
        = stringLoopL (acc ++ [c]) (p' ++ '"' :: k) := by
      cases p' with
      | nil => simp [stringLoopL, readStringLoop, hcc]
      | cons y ys => simp [stringLoopL, readStringLoop, hcc]
    rw [step, ih (acc ++ [c]) k hall.2]
    simp

theorem readString_spec (p k : List Char) (hp : p.all strChar = true) :
    readString ⟨'"', p ++ '"' :: k⟩ = (⟨.string, String.mk p⟩, NewLexer k) := by
  simp only [readString, advance_mk, readStringLoop_newLexer,
    stringLoopL_spec p [] k hp, List.nil_append]

theorem nextToken_string_lexeme (p k : List Char) (hp : p.all strChar = true) :
    nextToken (NewLexer ('"' :: (p ++ '"' :: k)))
      = .ok (⟨.string, String.mk p⟩, NewLexer k) := by
  rw [show NewLexer ('"' :: (p ++ '"' :: k)) = ⟨'"', p ++ '"' :: k⟩ from rfl,
    nextToken_mk_not_space (by decide),
    show nextTokenAt '"' (p ++ '"' :: k) = .ok (readString ⟨'"', p ++ '"' :: k⟩) from rfl,
    readString_spec p k hp]

/-- `readNumberLoop` with the initial `(current, rest)` split re-packed. -/
def numberLoopL (acc : List Char) : List Char → List Char × Lexer
  | [] => readNumberLoop acc nulChar []
  | c :: cs => readNumberLoop acc c cs

theorem readNumberLoop_newLexer (acc : List Char) (s : List Char) :
    readNumberLoop acc (NewLexer s).current (NewLexer s).rest = numberLoopL acc s := by
  cases s <;> rfl

theorem numberLoopL_spec :
    ∀ (d acc : List Char) (c : Char) (cs : List Char),
      d.all isNumberChar = true → isNumberChar c = false →
      numberLoopL acc (d ++ c :: cs) = (acc ++ d, ⟨c, cs⟩) := by
  intro d
  induction d with
  | nil =>
    intro acc c cs _ hc
    cases cs <;> simp [numberLoopL, readNumberLoop, hc]
  | cons x d' ih =>
    intro acc c cs hall hc
    simp only [List.all_cons, Bool.and_eq_true] at hall
    have step : numberLoopL acc ((x :: d') ++ c :: cs)
        = numberLoopL (acc ++ [x]) (d' ++ c :: cs) := by
      cases d' with
      | nil => simp [numberLoopL, readNumberLoop, hall.1]
      | cons y ys => simp [numberLoopL, readNumberLoop, hall.1]
    rw [step, ih (acc ++ [x]) c cs hall.2 hc]
    simp

theorem readNumber_spec (c₀ : Char) (d : List Char) (c : Char) (cs : List Char)
    (hd : (c₀ :: d).all isNumberChar = true) (hc : isNumberChar c = false) :
    readNumber ⟨c₀, d ++ c :: cs⟩ = (⟨.number, String.mk (c₀ :: d)⟩, ⟨c, cs⟩) := by
  have hstep : readNumberLoop ([] : List Char) c₀ (d ++ c :: cs)
      = numberLoopL [] ((c₀ :: d) ++ c :: cs) := rfl
  simp only [readNumber, hstep, numberLoopL_spec _ _ _ _ hd hc, List.nil_append]

theorem nextToken_number_lexeme (c₀ : Char) (d : List Char) (c : Char) (cs : List Char)
    (h₀ : (isDigitGo c₀ || c₀ = '-') = true)
    (hd : (c₀ :: d).all isNumberChar = true) (hc : isNumberChar c = false) :
    nextToken (NewLexer ((c₀ :: d) ++ c :: cs))
      = .ok (⟨.number, String.mk (c₀ :: d)⟩, ⟨c, cs⟩) := by
  have hsp : isSpaceGo c₀ = false := by
    cases hs : isSpaceGo c₀ with
    | false => rfl
    | true =>
      exfalso
      simp only [isSpaceGo, Bool.or_eq_true, decide_eq_true_eq] at hs
      rcases hs with ((((((h | h) | h) | h) | h) | h) | h) | h <;>
        (rw [h] at h₀; exact absurd h₀ (by decide))
  rw [show NewLexer ((c₀ :: d) ++ c :: cs) = ⟨c₀, d ++ c :: cs⟩ from rfl,
    nextToken_mk_not_space hsp]
  have hne : ∀ x : Char, (isDigitGo x || x = '-') = false → ¬c₀ = x := by
    intro x hx h
    rw [h, hx] at h₀
    cases h₀
  rw [nextTokenAt, if_neg (hne '{' (by decide)), if_neg (hne '}' (by decide)),
    if_neg (hne '[' (by decide)), if_neg (hne ']' (by decide)),
    if_neg (hne ':' (by decide)), if_neg (hne ',' (by decide)),
    if_neg (hne '"' (by decide)), if_pos h₀, readNumber_spec c₀ d c cs hd hc]

theorem nextToken_true_lexeme (c : Char) (cs : List Char) (hc : isLetterGo c = false) :
    nextToken (NewLexer ('t' :: 'r' :: 'u' :: 'e' :: c :: cs))
      = .ok (⟨.boolean, "true"⟩, ⟨c, cs⟩) := by
  rw [show NewLexer ('t' :: 'r' :: 'u' :: 'e' :: c :: cs)
      = ⟨'t', 'r' :: 'u' :: 'e' :: c :: cs⟩ from rfl,
    nextToken_mk_not_space (by decide),
    show nextTokenAt 't' ('r' :: 'u' :: 'e' :: c :: cs)
      = readKeyword ⟨'t', 'r' :: 'u' :: 'e' :: c :: cs⟩ from rfl]
  have hl : readKeywordLoop [] 't' ('r' :: 'u' :: 'e' :: c :: cs)
      = (['t', 'r', 'u', 'e'], ⟨c, cs⟩) := by
    rw [show readKeywordLoop [] 't' ('r' :: 'u' :: 'e' :: c :: cs)
        = readKeywordLoop ['t', 'r', 'u', 'e'] c cs from rfl]
    cases cs <;> simp [readKeywordLoop, hc]
  simp [readKeyword, hl]

theorem nextToken_false_lexeme (c : Char) (cs : List Char) (hc : isLetterGo c = false) :
    nextToken (NewLexer ('f' :: 'a' :: 'l' :: 's' :: 'e' :: c :: cs))
      = .ok (⟨.boolean, "false"⟩, ⟨c, cs⟩) := by
  rw [show NewLexer ('f' :: 'a' :: 'l' :: 's' :: 'e' :: c :: cs)
      = ⟨'f', 'a' :: 'l' :: 's' :: 'e' :: c :: cs⟩ from rfl,
    nextToken_mk_not_space (by decide),
    show nextTokenAt 'f' ('a' :: 'l' :: 's' :: 'e' :: c :: cs)
      = readKeyword ⟨'f', 'a' :: 'l' :: 's' :: 'e' :: c :: cs⟩ from rfl]
  have hl : readKeywordLoop [] 'f' ('a' :: 'l' :: 's' :: 'e' :: c :: cs)
      = (['f', 'a', 'l', 's', 'e'], ⟨c, cs⟩) := by
    rw [show readKeywordLoop [] 'f' ('a' :: 'l' :: 's' :: 'e' :: c :: cs)
        = readKeywordLoop ['f', 'a', 'l', 's', 'e'] c cs from rfl]
    cases cs <;> simp [readKeywordLoop, hc]
  simp [readKeyword, hl]

theorem nextToken_null_lexeme (c : Char) (cs : List Char) (hc : isLetterGo c = false) :
    nextToken (NewLexer ('n' :: 'u' :: 'l' :: 'l' :: c :: cs))
      = .ok (⟨.null, "null"⟩, ⟨c, cs⟩) := by
  rw [show NewLexer ('n' :: 'u' :: 'l' :: 'l' :: c :: cs)
      = ⟨'n', 'u' :: 'l' :: 'l' :: c :: cs⟩ from rfl,
    nextToken_mk_not_space (by decide),
    show nextTokenAt 'n' ('u' :: 'l' :: 'l' :: c :: cs)
      = readKeyword ⟨'n', 'u' :: 'l' :: 'l' :: c :: cs⟩ from rfl]
  have hl : readKeywordLoop [] 'n' ('u' :: 'l' :: 'l' :: c :: cs)
      = (['n', 'u', 'l', 'l'], ⟨c, cs⟩) := by
    rw [show readKeywordLoop [] 'n' ('u' :: 'l' :: 'l' :: c :: cs)
        = readKeywordLoop ['n', 'u', 'l', 'l'] c cs from rfl]
    cases cs <;> simp [readKeywordLoop, hc]
  simp [readKeyword, hl]

/-! ## Token runs -/

/-- `LexSeq l ts l'`: starting from `l`, successive `nextToken` calls produce
exactly the tokens `ts` and leave the lexer in state `l'`. -/
inductive LexSeq : Lexer → List Token → Lexer → Prop where
  | nil (l : Lexer) : LexSeq l [] l
  | cons {l : Lexer} {t : Token} {l' : Lexer} {ts : List Token} {l'' : Lexer} :
      nextToken l = .ok (t, l') → LexSeq l' ts l'' → LexSeq l (t :: ts) l''

theorem LexSeq.append {l₁ : Lexer} {ts₁ : List Token} {l₂ : Lexer} {ts₂ : List Token}
    {l₃ : Lexer} (h₁ : LexSeq l₁ ts₁ l₂) :
    LexSeq l₂ ts₂ l₃ → LexSeq l₁ (ts₁ ++ ts₂) l₃ := by
  induction h₁ with
  | nil => exact id
  | cons hstep _ ih => exact fun h₂ => .cons hstep (ih h₂)

theorem trace_of_lexSeq {l : Lexer} {ts : List Token} {l' : Lexer} (h : LexSeq l ts l') :
    ∀ n, trace n l = (ts.take n).map GoOutcome.ok ++ trace (n - ts.length) l' := by
  induction h with
  | nil => intro n; simp
  | cons hstep _ ih =>
    intro n
    cases n with
    | zero => simp [trace]
    | succ n =>
      simp only [trace, hstep, ih n, List.take_succ_cons, List.map_cons, List.length_cons,
        Nat.succ_sub_succ, List.cons_append]

theorem nextToken_ws_only (w : List Char) (hw : ∀ c ∈ w, isSpaceGo c = true) :
    nextToken (NewLexer w) = .ok (⟨.eof, ""⟩, ⟨nulChar, []⟩) := by
  have h := nextToken_ws_append w [] hw
  rw [List.append_nil] at h
  rw [h]
  rfl

theorem trace_ws_only (w : List Char) (hw : ∀ c ∈ w, isSpaceGo c = true) :
    ∀ n, trace n (NewLexer w) = trace n (NewLexer []) := by
  intro n
  cases n with
  | zero => rfl
  | succ n =>
    rw [trace, trace, nextToken_ws_only w hw,
      show nextToken (NewLexer []) = .ok (⟨.eof, ""⟩, ⟨nulChar, []⟩) from rfl]

/-! ## Documents decorated with inter-token whitespace

A `DVal` is a document together with an explicit whitespace run before every
token (and before each closer); `drender` flattens it to input text, `dstrip`
forgets the whitespace.  Two decorations of one underlying document are
exactly two ways of inserting whitespace runs between the tokens of that
document. -/

mutual
/-- A JSON value whose rendering carries a whitespace run before each token:
`dstr ws payload`, `dnum ws lexeme`, keyword literals with their leading run,
and containers `dobj ws members wsClose` / `darr ws elems wsClose` (with the
run before the closing bracket explicit). -/
inductive DVal where
  | dstr : List Char → List Char → DVal
  | dnum : List Char → List Char → DVal
  | dtrue : List Char → DVal
  | dfalse : List Char → DVal
  | dnull : List Char → DVal
  | dobj : List Char → DMembers → List Char → DVal
  | darr : List Char → DElems → List Char → DVal

/-- Object members `mcons wsComma wsKey key wsColon value rest`; the comma and
its leading run are rendered before every member except the first. -/
inductive DMembers where
  | mnil : DMembers
  | mcons : List Char → List Char → List Char → List Char → DVal → DMembers → DMembers

/-- Array elements `econs wsComma value rest`; the comma and its leading run
are rendered before every element except the first. -/
inductive DElems where
  | enil : DElems
  | econs : List Char → DVal → DElems → DElems
end

mutual
/-- Flatten a decorated value to input text. -/
def drender : DVal → List Char
  | .dstr ws p => ws ++ '"' :: (p ++ ['"'])
  | .dnum ws lex => ws ++ lex
  | .dtrue ws => ws ++ ['t', 'r', 'u', 'e']
  | .dfalse ws => ws ++ ['f', 'a', 'l', 's', 'e']
  | .dnull ws => ws ++ ['n', 'u', 'l', 'l']
  | .dobj ws ms wsc => ws ++ '{' :: (renderMembers true ms ++ (wsc ++ ['}']))
  | .darr ws es wsc => ws ++ '[' :: (renderElems true es ++ (wsc ++ [']']))

def renderMembers : Bool → DMembers → List Char
  | _, .mnil => []
  | first, .mcons wsC wsK key wsCol v rest =>
    (if first then [] else wsC ++ [',']) ++ wsK ++ '"' :: (key ++ ['"'])
      ++ wsCol ++ ':' :: (drender v ++ renderMembers false rest)

def renderElems : Bool → DElems → List Char
  | _, .enil => []
  | first, .econs wsC v rest =>
    (if first then [] else wsC ++ [',']) ++ drender v ++ renderElems false rest
end

mutual
/-- A document with the whitespace forgotten. -/
inductive JVal where
  | jstr : List Char → JVal
  | jnum : List Char → JVal
  | jtrue : JVal
  | jfalse : JVal
  | jnull : JVal
  | jobj : JMembers → JVal
  | jarr : JElems → JVal

inductive JMembers where
  | mnil : JMembers
  | mcons : List Char → JVal → JMembers → JMembers

inductive JElems where
  | enil : JElems
  | econs : JVal → JElems → JElems
end

mutual
/-- Forget the whitespace decoration. -/
def dstrip : DVal → JVal
  | .dstr _ p => .jstr p
  | .dnum _ lex => .jnum lex
  | .dtrue _ => .jtrue
  | .dfalse _ => .jfalse
  | .dnull _ => .jnull
  | .dobj _ ms _ => .jobj (mstrip ms)
  | .darr _ es _ => .jarr (estrip es)

def mstrip : DMembers → JMembers
  | .mnil => .mnil
  | .mcons _ _ key _ v rest => .mcons key (dstrip v) (mstrip rest)

def estrip : DElems → JElems
  | .enil => .enil
  | .econs _ v rest => .econs (dstrip v) (estrip rest)
end

mutual
/-- The token sequence the lexer produces for a stripped document. -/
def vtoks : JVal → List Token
  | .jstr p => [⟨.string, String.mk p⟩]
  | .jnum lex => [⟨.number, String.mk lex⟩]
  | .jtrue => [⟨.boolean, "true"⟩]
  | .jfalse => [⟨.boolean, "false"⟩]
  | .jnull => [⟨.null, "null"⟩]
  | .jobj ms => ⟨.leftBrace, "\x7b"⟩ :: (mtoks true ms ++ [⟨.rightBrace, "\x7d"⟩])
  | .jarr es => ⟨.leftBracket, "["⟩ :: (etoks true es ++ [⟨.rightBracket, "]"⟩])

def mtoks : Bool → JMembers → List Token
  | _, .mnil => []
  | first, .mcons key v rest =>
    (if first then [] else [⟨.comma, ","⟩])
      ++ ⟨.string, String.mk key⟩ :: ⟨.colon, ":"⟩ :: (vtoks v ++ mtoks false rest)

def etoks : Bool → JElems → List Token
  | _, .enil => []
  | first, .econs v rest =>
    (if first then [] else [⟨.comma, ","⟩]) ++ vtoks v ++ etoks false rest
end

/-- The whitespace characters named by the specification: space, tab, newline,
carriage return. -/
def wsChar (c : Char) : Bool := c = ' ' || c = '\t' || c = '\n' || c = '\r'

/-- A number lexeme the lexer dispatch accepts: a digit or minus first, then
only digits, dots and minus signs (this is exactly what `readNumber` can
scan as one token; validity of the number grammar is deliberately absent). -/
def numLexemeOK (lex : List Char) : Bool :=
  match lex with
  | [] => false
  | c :: _ => (isDigitGo c || c = '-') && lex.all isNumberChar

mutual
/-- Lexical well-formedness of a decoration: every whitespace run uses the
four spec characters, string payloads avoid the quote and NUL, number
lexemes start as `readNumber` requires. -/
def dvalid : DVal → Bool
  | .dstr ws p => ws.all wsChar && p.all strChar
  | .dnum ws lex => ws.all wsChar && numLexemeOK lex
  | .dtrue ws => ws.all wsChar
  | .dfalse ws => ws.all wsChar
  | .dnull ws => ws.all wsChar
  | .dobj ws ms wsc => ws.all wsChar && mvalid ms && wsc.all wsChar
  | .darr ws es wsc => ws.all wsChar && evalid es && wsc.all wsChar

def mvalid : DMembers → Bool
  | .mnil => true
  | .mcons wsC wsK key wsCol v rest =>
    wsC.all wsChar && wsK.all wsChar && key.all strChar && wsCol.all wsChar
      && dvalid v && mvalid rest

def evalid : DElems → Bool
  | .enil => true
  | .econs wsC v rest => wsC.all wsChar && dvalid v && evalid rest
end

/-- A character that ends both a number scan and a keyword scan. -/
def stopperChar (c : Char) : Bool := !isNumberChar c && !isLetterGo c

/-- Text whose first character ends a number or keyword scan (in a rendered
document, what follows a value is always whitespace, a comma or a closer). -/
def stopper : List Char → Bool
  | [] => false
  | c :: _ => stopperChar c

/-- Whether a value's final token is a number or keyword, whose scan peeks at
the following character. -/
def needsStopper : DVal → Bool
  | .dnum _ _ => true
  | .dtrue _ => true
  | .dfalse _ => true
  | .dnull _ => true
  | _ => false

theorem wsChar_isSpaceGo {c : Char} (h : wsChar c = true) : isSpaceGo c = true := by
  simp only [wsChar, Bool.or_eq_true, decide_eq_true_eq] at h
  rcases h with ((h | h) | h) | h <;> (rw [h]; decide)

theorem wsAll_isSpaceGo {w : List Char} (h : w.all wsChar = true) :
    ∀ c ∈ w, isSpaceGo c = true :=
  fun c hc => wsChar_isSpaceGo (List.all_eq_true.mp h c hc)

theorem wsChar_stopperChar {c : Char} (h : wsChar c = true) : stopperChar c = true := by
  simp only [wsChar, Bool.or_eq_true, decide_eq_true_eq] at h
  rcases h with ((h | h) | h) | h <;> (rw [h]; decide)

theorem stopper_ws_cons {w : List Char} {c : Char} (t : List Char)
    (hw : w.all wsChar = true) (hc : stopperChar c = true) :
    stopper (w ++ c :: t) = true := by
  cases w with
  | nil => exact hc
  | cons x xs =>
    have hx : wsChar x = true := (List.all_eq_true.mp hw) x (List.mem_cons_self x xs)
    exact wsChar_stopperChar hx

theorem stopper_members (ms : DMembers) (k : List Char) (hm : mvalid ms = true)
    (hk : stopper k = true) : stopper (renderMembers false ms ++ k) = true := by
  cases ms with
  | mnil => exact hk
  | mcons wsC wsK key wsCol v rest =>
    have hws : wsC.all wsChar = true := by
      simp only [mvalid, Bool.and_eq_true] at hm
      exact hm.1.1.1.1.1
    show stopper (((wsC ++ [','] ) ++ wsK ++ '"' :: (key ++ ['"'])
      ++ wsCol ++ ':' :: (drender v ++ renderMembers false rest)) ++ k) = true
    have hsh : ((wsC ++ [','] ) ++ wsK ++ '"' :: (key ++ ['"'])
        ++ wsCol ++ ':' :: (drender v ++ renderMembers false rest)) ++ k
        = wsC ++ ',' :: ((wsK ++ '"' :: (key ++ ['"'])
          ++ wsCol ++ ':' :: (drender v ++ renderMembers false rest)) ++ k) := by
      simp
    rw [hsh]
    exact stopper_ws_cons _ hws (by decide)

theorem stopper_elems (es : DElems) (k : List Char) (he : evalid es = true)
    (hk : stopper k = true) : stopper (renderElems false es ++ k) = true := by
  cases es with
  | enil => exact hk
  | econs wsC v rest =>
    have hws : wsC.all wsChar = true := by
      simp only [evalid, Bool.and_eq_true] at he
      exact he.1.1
    show stopper (((wsC ++ [','] ) ++ drender v ++ renderElems false rest) ++ k) = true
    have hsh : ((wsC ++ [','] ) ++ drender v ++ renderElems false rest) ++ k
        = wsC ++ ',' :: ((drender v ++ renderElems false rest) ++ k) := by simp
    rw [hsh]
    exact stopper_ws_cons _ hws (by decide)

mutual

/-- Lexing a rendered decorated value consumes exactly its rendering and
produces the token sequence of its stripped form, independent of the
whitespace decoration (which only names the runs between tokens). -/
theorem lexSeq_render : ∀ (d : DVal) (k : List Char), dvalid d = true →
    (needsStopper d = true → stopper k = true) →
    LexSeq (NewLexer (drender d ++ k)) (vtoks (dstrip d)) (NewLexer k)
  | .dstr ws p, k, hv, _ => by
    have hv' := hv
    simp only [dvalid, Bool.and_eq_true] at hv'
    obtain ⟨hws, hp⟩ := hv'
    show LexSeq (NewLexer ((ws ++ '"' :: (p ++ ['"'])) ++ k))
      [⟨.string, String.mk p⟩] (NewLexer k)
    have hsh : (ws ++ '"' :: (p ++ ['"'])) ++ k = ws ++ '"' :: (p ++ '"' :: k) := by simp
    rw [hsh]
    refine .cons ?_ (.nil _)
    rw [nextToken_ws_append _ _ (wsAll_isSpaceGo hws), nextToken_string_lexeme p k hp]
  | .dnum ws lex, k, hv, hst => by
    have hv' := hv
    simp only [dvalid, Bool.and_eq_true] at hv'
    obtain ⟨hws, hlex⟩ := hv'
    have hk : stopper k = true := hst rfl
    cases lex with
    | nil => simp [numLexemeOK] at hlex
    | cons c₀ d =>
      cases k with
      | nil => simp [stopper] at hk
      | cons c cs =>
        have hlex' := hlex
        simp only [numLexemeOK, Bool.and_eq_true] at hlex'
        obtain ⟨h₀, hall⟩ := hlex'
        have hc : isNumberChar c = false := by
          have h' : stopperChar c = true := hk
          simp only [stopperChar, Bool.and_eq_true, Bool.not_eq_true'] at h'
          exact h'.1
        show LexSeq (NewLexer ((ws ++ (c₀ :: d)) ++ (c :: cs)))
          [⟨.number, String.mk (c₀ :: d)⟩] (NewLexer (c :: cs))
        have hsh : (ws ++ (c₀ :: d)) ++ (c :: cs) = ws ++ ((c₀ :: d) ++ (c :: cs)) := by
          simp
        rw [hsh]
        refine .cons ?_ (.nil _)
        rw [nextToken_ws_append _ _ (wsAll_isSpaceGo hws),
          nextToken_number_lexeme c₀ d c cs h₀ hall hc]
        rfl
  | .dtrue ws, k, hv, hst => by
    have hk : stopper k = true := hst rfl
    cases k with
    | nil => simp [stopper] at hk
    | cons c cs =>
      have hc : isLetterGo c = false := by
        have h' : stopperChar c = true := hk
        simp only [stopperChar, Bool.and_eq_true, Bool.not_eq_true'] at h'
        exact h'.2
      show LexSeq (NewLexer ((ws ++ ['t', 'r', 'u', 'e']) ++ (c :: cs)))
        [⟨.boolean, "true"⟩] (NewLexer (c :: cs))
      have hsh : (ws ++ ['t', 'r', 'u', 'e']) ++ (c :: cs)
          = ws ++ ('t' :: 'r' :: 'u' :: 'e' :: c :: cs) := by simp
      rw [hsh]
      refine .cons ?_ (.nil _)
      rw [nextToken_ws_append _ _ (wsAll_isSpaceGo hv), nextToken_true_lexeme c cs hc]
      rfl
  | .dfalse ws, k, hv, hst => by
    have hk : stopper k = true := hst rfl
    cases k with
    | nil => simp [stopper] at hk
    | cons c cs =>
      have hc : isLetterGo c = false := by
        have h' : stopperChar c = true := hk
        simp only [stopperChar, Bool.and_eq_true, Bool.not_eq_true'] at h'
        exact h'.2
      show LexSeq (NewLexer ((ws ++ ['f', 'a', 'l', 's', 'e']) ++ (c :: cs)))
        [⟨.boolean, "false"⟩] (NewLexer (c :: cs))
      have hsh : (ws ++ ['f', 'a', 'l', 's', 'e']) ++ (c :: cs)
          = ws ++ ('f' :: 'a' :: 'l' :: 's' :: 'e' :: c :: cs) := by simp
      rw [hsh]
      refine .cons ?_ (.nil _)
      rw [nextToken_ws_append _ _ (wsAll_isSpaceGo hv), nextToken_false_lexeme c cs hc]
      rfl
  | .dnull ws, k, hv, hst => by
    have hk : stopper k = true := hst rfl
    cases k with
    | nil => simp [stopper] at hk
    | cons c cs =>
      have hc : isLetterGo c = false := by
        have h' : stopperChar c = true := hk
        simp only [stopperChar, Bool.and_eq_true, Bool.not_eq_true'] at h'
        exact h'.2
      show LexSeq (NewLexer ((ws ++ ['n', 'u', 'l', 'l']) ++ (c :: cs)))
        [⟨.null, "null"⟩] (NewLexer (c :: cs))
      have hsh : (ws ++ ['n', 'u', 'l', 'l']) ++ (c :: cs)
          = ws ++ ('n' :: 'u' :: 'l' :: 'l' :: c :: cs) := by simp
      rw [hsh]
      refine .cons ?_ (.nil _)
      rw [nextToken_ws_append _ _ (wsAll_isSpaceGo hv), nextToken_null_lexeme c cs hc]
      rfl
  | .dobj ws ms wsc, k, hv, _ => by
    have hv' := hv
    simp only [dvalid, Bool.and_eq_true] at hv'
    obtain ⟨⟨hws, hms⟩, hwsc⟩ := hv'
    show LexSeq (NewLexer ((ws ++ '{' :: (renderMembers true ms ++ (wsc ++ ['}']))) ++ k))
      (⟨.leftBrace, "\x7b"⟩ :: (mtoks true (mstrip ms) ++ [⟨.rightBrace, "\x7d"⟩]))
      (NewLexer k)
    have hsh : (ws ++ '{' :: (renderMembers true ms ++ (wsc ++ ['}']))) ++ k
        = ws ++ '{' :: (renderMembers true ms ++ (wsc ++ '}' :: k)) := by simp
    rw [hsh]
    refine .cons (by rw [nextToken_ws_append _ _ (wsAll_isSpaceGo hws), nextToken_lbrace]) ?_
    refine LexSeq.append
      (lexSeq_members ms true (wsc ++ '}' :: k) hms (stopper_ws_cons _ hwsc (by decide))) ?_
    refine .cons ?_ (.nil _)
    rw [nextToken_ws_append _ _ (wsAll_isSpaceGo hwsc), nextToken_rbrace]
  | .darr ws es wsc, k, hv, _ => by
    have hv' := hv
    simp only [dvalid, Bool.and_eq_true] at hv'
    obtain ⟨⟨hws, hes⟩, hwsc⟩ := hv'
    show LexSeq (NewLexer ((ws ++ '[' :: (renderElems true es ++ (wsc ++ [']']))) ++ k))
      (⟨.leftBracket, "["⟩ :: (etoks true (estrip es) ++ [⟨.rightBracket, "]"⟩]))
      (NewLexer k)
    have hsh : (ws ++ '[' :: (renderElems true es ++ (wsc ++ [']']))) ++ k
        = ws ++ '[' :: (renderElems true es ++ (wsc ++ ']' :: k)) := by simp
    rw [hsh]
    refine .cons (by rw [nextToken_ws_append _ _ (wsAll_isSpaceGo hws), nextToken_lbracket]) ?_
    refine LexSeq.append
      (lexSeq_elems es true (wsc ++ ']' :: k) hes (stopper_ws_cons _ hwsc (by decide))) ?_
    refine .cons ?_ (.nil _)
    rw [nextToken_ws_append _ _ (wsAll_isSpaceGo hwsc), nextToken_rbracket]

/-- Lexing rendered object members (with their separating commas). -/
theorem lexSeq_members : ∀ (ms : DMembers) (first : Bool) (k : List Char),
    mvalid ms = true → stopper k = true →
    LexSeq (NewLexer (renderMembers first ms ++ k)) (mtoks first (mstrip ms)) (NewLexer k)
  | .mnil, _, k, _, _ => .nil _
  | .mcons wsC wsK key wsCol v rest, first, k, hm, hk => by
    have hm' := hm
    simp only [mvalid, Bool.and_eq_true] at hm'
    obtain ⟨⟨⟨⟨⟨hwsC, hwsK⟩, hkey⟩, hwsCol⟩, hdv⟩, hrest⟩ := hm'
    have core : LexSeq
        (NewLexer ((wsK ++ '"' :: (key ++ ['"'])
          ++ wsCol ++ ':' :: (drender v ++ renderMembers false rest)) ++ k))
        (⟨.string, String.mk key⟩ :: ⟨.colon, ":"⟩
          :: (vtoks (dstrip v) ++ mtoks false (mstrip rest)))
        (NewLexer k) := by
      have hsh : (wsK ++ '"' :: (key ++ ['"'])
          ++ wsCol ++ ':' :: (drender v ++ renderMembers false rest)) ++ k
          = wsK ++ '"' :: (key ++ '"'
            :: (wsCol ++ ':' :: ((drender v ++ renderMembers false rest) ++ k))) := by
        simp
      rw [hsh]
      refine .cons
        (by rw [nextToken_ws_append _ _ (wsAll_isSpaceGo hwsK),
             nextToken_string_lexeme key _ hkey]) ?_
      refine .cons
        (by rw [nextToken_ws_append _ _ (wsAll_isSpaceGo hwsCol), nextToken_colon]) ?_
      have hsh2 : (drender v ++ renderMembers false rest) ++ k
          = drender v ++ (renderMembers false rest ++ k) := by simp
      rw [hsh2]
      exact LexSeq.append
        (lexSeq_render v (renderMembers false rest ++ k) hdv
          (fun _ => stopper_members rest k hrest hk))
        (lexSeq_members rest false k hrest hk)
    cases first with
    | true => exact core
    | false =>
      show LexSeq
        (NewLexer (((wsC ++ [','] ) ++ wsK ++ '"' :: (key ++ ['"'])
          ++ wsCol ++ ':' :: (drender v ++ renderMembers false rest)) ++ k))
        (⟨.comma, ","⟩ :: (⟨.string, String.mk key⟩ :: ⟨.colon, ":"⟩
          :: (vtoks (dstrip v) ++ mtoks false (mstrip rest))))
        (NewLexer k)
      have hsh : ((wsC ++ [','] ) ++ wsK ++ '"' :: (key ++ ['"'])
          ++ wsCol ++ ':' :: (drender v ++ renderMembers false rest)) ++ k
          = wsC ++ ',' :: ((wsK ++ '"' :: (key ++ ['"'])
            ++ wsCol ++ ':' :: (drender v ++ renderMembers false rest)) ++ k) := by
        simp
      rw [hsh]
      exact .cons
        (by rw [nextToken_ws_append _ _ (wsAll_isSpaceGo hwsC), nextToken_comma]) core

/-- Lexing rendered array elements (with their separating commas). -/
theorem lexSeq_elems : ∀ (es : DElems) (first : Bool) (k : List Char),
    evalid es = true → stopper k = true →
    LexSeq (NewLexer (renderElems first es ++ k)) (etoks first (estrip es)) (NewLexer k)
  | .enil, _, k, _, _ => .nil _
  | .econs wsC v rest, first, k, he, hk => by
    have he' := he
    simp only [evalid, Bool.and_eq_true] at he'
    obtain ⟨⟨hwsC, hdv⟩, hrest⟩ := he'
    have core : LexSeq (NewLexer ((drender v ++ renderElems false rest) ++ k))
        (vtoks (dstrip v) ++ etoks false (estrip rest)) (NewLexer k) := by
      have hsh : (drender v ++ renderElems false rest) ++ k
          = drender v ++ (renderElems false rest ++ k) := by simp
      rw [hsh]
      exact LexSeq.append
        (lexSeq_render v (renderElems false rest ++ k) hdv
          (fun _ => stopper_elems rest k hrest hk))
        (lexSeq_elems rest false k hrest hk)
    cases first with
    | true => exact core
    | false =>
      show LexSeq
        (NewLexer (((wsC ++ [','] ) ++ drender v ++ renderElems false rest) ++ k))
        (⟨.comma, ","⟩ :: (vtoks (dstrip v) ++ etoks false (estrip rest)))
        (NewLexer k)
      have hsh : ((wsC ++ [','] ) ++ drender v ++ renderElems false rest) ++ k
          = wsC ++ ',' :: ((drender v ++ renderElems false rest) ++ k) := by simp
      rw [hsh]
      exact .cons
        (by rw [nextToken_ws_append _ _ (wsAll_isSpaceGo hwsC), nextToken_comma]) core

end

/-! ## The claims -/

/-- C1: the spec requires every malformed input to be reported as a structured
error value (kind, message, byte offset) and never to terminate the host
process.  The code instead panics: here three malformed inputs reach
`parseObject`'s key check, `readKeyword`'s keyword check and `parseJSON`'s
top-level check, and each run ends in `GoOutcome.panicked` — a Go panic,
which unrecovered kills the process — carrying only a message string (the
`Token` type does not even record a byte offset). -/
theorem c1_malformed_input_panics :
    runParser 9 ("\x7b").toList = .panicked "Expected string key in object"
    ∧ runParser 9 ("\x7b\"x\": tru\x7d").toList = .panicked "Unexpected keyword: tru"
    ∧ runParser 9 "true ".toList = .panicked "Invalid JSON start" :=
  ⟨rfl, rfl, rfl⟩

/-- C2: the spec requires trailing commas before a closer to be rejected with
a ParseError; the code accepts both `[1,]` and an object analogue, returning
a normal value. -/
theorem c2_trailing_comma_accepted :
    runParser 9 "[1,]".toList = .ok (.arr [.num ⟨1, 0⟩])
    ∧ runParser 9 ("\x7b\"a\":1,\x7d").toList = .ok (.obj [("a", .num ⟨1, 0⟩)]) :=
  ⟨rfl, rfl⟩

/-- C3: the spec requires string literals to be returned fully decoded; the
code's `readString` copies source characters verbatim, so the two-character
source sequence backslash–n survives as the two characters `\` and `n` in the
String payload instead of one newline. -/
theorem c3_escapes_not_decoded :
    runParser 9 ("\x7b\"s\":\"a\\nb\"\x7d").toList
      = .ok (.obj [("s", .str (String.mk ['a', '\\', 'n', 'b']))]) := rfl

/-- C4: the spec requires an unterminated string literal to fail with a
LexError; the code's `readString` quietly consumes to end of input and
returns the fragment as a perfectly ordinary String token. -/
theorem c4_unterminated_string_token :
    nextToken (NewLexer "\"abc".toList) = .ok (⟨.string, "abc"⟩, ⟨nulChar, []⟩) := rfl

/-- C5: duplicate object keys follow the last-occurrence-wins policy.
The spec's own scenario parses to a single binding holding the second value;
Go map assignment (`insertPair`) always makes the inserted value the one
found for its key; and every value the parser can return satisfies the map
invariant of at most one binding per key (`AllUniq`), so no trace of an
earlier occurrence survives. -/
theorem c5_duplicate_keys_last_wins :
    runParser 9 ("\x7b\"a\":1,\"a\":2\x7d").toList = .ok (.obj [("a", .num ⟨2, 0⟩)])
    ∧ (∀ (m : List (String × Value)) (k : String) (v : Value),
        lookupKey (insertPair m k v) k = some v)
    ∧ (∀ (fuel : Nat) (s : List Char) (v : Value),
        runParser fuel s = .ok v → AllUniq v) :=
  ⟨rfl, lookupKey_insertPair_self, runParser_allUniq⟩

/-- Witness for C5 at the spec's duplicate-key scenario. -/
theorem c5_witness : AllUniq (Value.obj [("a", Value.num ⟨2, 0⟩)]) :=
  c5_duplicate_keys_last_wins.2.2 9 ("\x7b\"a\":1,\"a\":2\x7d").toList _
    c5_duplicate_keys_last_wins.1

/-- C6 (amended): any first token other than `\x7b` or `[` makes `parseJSON`
fail — by panicking with `Invalid JSON start`, not by returning a ParseError
value — and the parse never succeeds. -/
theorem c6_top_level_must_be_container :
    ∀ (fuel : Nat) (s : List Char) (t : Token) (l : Lexer),
      nextToken (NewLexer s) = .ok (t, l) →
      t.type ≠ .leftBrace → t.type ≠ .leftBracket →
      runParser fuel s = .panicked "Invalid JSON start" := by
  intro fuel s t l h h1 h2
  obtain ⟨tt, tv⟩ := t
  simp only [runParser, h]
  cases tt <;> first
    | exact absurd rfl h1
    | exact absurd rfl h2
    | rfl

/-- Witness for C6 at the input `null ` (whose first token is a Null token). -/
theorem c6_witness : runParser 9 "null ".toList = .panicked "Invalid JSON start" :=
  c6_top_level_must_be_container 9 "null ".toList ⟨.null, "null"⟩ ⟨' ', []⟩ rfl
    (by decide) (by decide)

/-- C6 counterexample to the claim as stated: at the bare scalar `42` the
code does fail, but the failure is a panic (`GoOutcome.panicked`), not a
returned ParseError value — the program has no error values at all. -/
theorem c6_counterexample : runParser 9 "42".toList = .panicked "Invalid JSON start" := rfl

/-- C7: the spec requires malformed number literals (leading zero, bare
minus, dangling decimal point) to be lexical errors; the code's `readNumber`
accepts any run of digits, dots and minus signs as a Number token, and the
parses succeed. -/
theorem c7_number_grammar_not_validated :
    runParser 9 "[01]".toList = .ok (.arr [.num ⟨1, 0⟩])
    ∧ runParser 9 "[-]".toList = .ok (.arr [.num ⟨0, 0⟩])
    ∧ runParser 9 "[1.]".toList = .ok (.arr [.num ⟨1, 0⟩])
    ∧ nextToken (NewLexer "01]".toList) = .ok (⟨.number, "01"⟩, ⟨']', []⟩) :=
  ⟨rfl, rfl, rfl, rfl⟩

/-- C8: the spec requires non-whitespace content after the top-level value to
be a trailing-content error; `parseJSON` never looks past the top-level value,
so the code accepts the prefix and ignores the rest. -/
theorem c8_trailing_content_ignored :
    runParser 9 ("\x7b\x7d123").toList = .ok (.obj [])
    ∧ runParser 9 "[] [1]".toList = .ok (.arr []) :=
  ⟨rfl, rfl⟩

/-- Two lexically well-formed decorations of one document produce identical
token streams, whatever their whitespace runs (and trailing runs). -/
theorem traceEq_of_renders (d₁ d₂ : DVal) (w₁ w₂ : List Char)
    (h₁ : dvalid d₁ = true) (h₂ : dvalid d₂ = true)
    (hw₁ : w₁.all wsChar = true) (hw₂ : w₂.all wsChar = true)
    (hn₁ : needsStopper d₁ = false) (hn₂ : needsStopper d₂ = false)
    (hstrip : dstrip d₁ = dstrip d₂) :
    TraceEq (NewLexer (drender d₁ ++ w₁)) (NewLexer (drender d₂ ++ w₂)) := by
  intro n
  have hs₁ := lexSeq_render d₁ w₁ h₁ (fun h => by rw [hn₁] at h; cases h)
  have hs₂ := lexSeq_render d₂ w₂ h₂ (fun h => by rw [hn₂] at h; cases h)
  rw [trace_of_lexSeq hs₁ n, trace_of_lexSeq hs₂ n, hstrip]
  congr 1
  exact (trace_ws_only w₁ (wsAll_isSpaceGo hw₁) _).trans
    (trace_ws_only w₂ (wsAll_isSpaceGo hw₂) _).symm

/-- C9: whitespace insensitivity.  `d₁` and `d₂` range over all whitespace
decorations (arbitrary runs of space, tab, newline, carriage return before
every token, plus a trailing run) of documents; if they decorate the same
underlying document (`dstrip d₁ = dstrip d₂`), parsing the two rendered
texts gives identical results — same value tree, or same panic — for every
fuel.  `needsStopper dᵢ = false` holds for every document the grammar
accepts at top level (an Object or Array; strings too). -/
theorem c9_whitespace_insensitivity :
    ∀ (d₁ d₂ : DVal) (w₁ w₂ : List Char) (fuel : Nat),
      dvalid d₁ = true → dvalid d₂ = true →
      w₁.all wsChar = true → w₂.all wsChar = true →
      needsStopper d₁ = false → needsStopper d₂ = false →
      dstrip d₁ = dstrip d₂ →
      runParser fuel (drender d₁ ++ w₁) = runParser fuel (drender d₂ ++ w₂) :=
  fun d₁ d₂ w₁ w₂ fuel h₁ h₂ hw₁ hw₂ hn₁ hn₂ hs =>
    runParser_traceEq fuel _ _ (traceEq_of_renders d₁ d₂ w₁ w₂ h₁ h₂ hw₁ hw₂ hn₁ hn₂ hs)

/-- Witness for C9: `[1]` against ` [ 1 ]  ` (the same one-element document
with whitespace runs inserted at every boundary). -/
theorem c9_witness : runParser 9 "[1]".toList = runParser 9 " [ 1 ]  ".toList :=
  c9_whitespace_insensitivity
    (.darr [] (.econs [] (.dnum [] ['1']) .enil) [])
    (.darr [' '] (.econs [] (.dnum [' '] ['1']) .enil) [' '])
    [] [' ', ' '] 9 rfl rfl rfl rfl rfl rfl rfl

/-- C10: number tokens that are not valid float literals (`1.2.3`, `1-2`) are
silently converted to the Number value 0: `strconv.ParseFloat` fails, the
error is discarded in `parseValue`, and Go's zero result lands in the tree. -/
theorem c10_invalid_number_silently_zero :
    runParser 9 "[1.2.3]".toList = .ok (.arr [.num floatZero])
    ∧ runParser 9 "[1-2]".toList = .ok (.arr [.num floatZero])
    ∧ parseFloatGo "1.2.3".toList = none
    ∧ parseFloatGo "1-2".toList = none :=
  ⟨rfl, rfl, rfl, rfl⟩

end JsonGo
